import Mathlib

/-!
Verification of the prefix-expansion / sampled-fetch library
(`dask_azure_storage_blob.py`) against its specification.

The embedding models the three components of the source file:

* `list_prefixes` (source lines 37-82): the recursive, depth-bounded
  prefix expansion (the spec's PrefixExpander `expand`).
* `read_under_prefix` (source lines 85-102): listing plus uniform random
  sampling plus fetching (the spec's PrefixSampler `sampleAndFetch`).
* `list_properties` (source lines 105-117): the ancillary metadata listing.

Modelling conventions:

* The Azure `ContainerClient` is the spec's StoreHandle.  Its construction
  (`azure.storage.blob.ContainerClient(**storage_options)`) is the handle
  acquisition and emits the event `Ev.openH`; the exit of the surrounding
  `with` block calls `close()` and emits `Ev.closeH`.  Store calls
  (`walk_blobs`, `list_blobs`, blob downloads) emit their own events, so a
  trace records the order of opens, closes, listings and fetches on every
  exit path, including error exits.
* Fallible store operations return `Except Err`; a raised Python exception
  is the `Except.error` branch.  The `assert 0 <= sample <= 1` raising
  `AssertionError` is the spec's `InvalidArgument`.
* `dask.delayed` / `dask.compute` only defer execution; the value computed
  and the per-call handle discipline are as in the sequential reading, and
  `dask.compute(*xs)` returns results in dispatch (discovery) order, which
  is how `gather` combines child results below.
* Python's `random.sample(blobs, k)` is modelled by an arbitrary selection
  function `Store.sample`; the properties `random.sample` guarantees
  (result length `k`, drawn without replacement from the input, a full
  permutation when `k` equals the population size) form the predicate
  `SampleOK` assumed where needed.
* Python integers are `Int`/`Nat`; the float fraction is modelled exactly
  as `ℚ`.  `int(len(blobs) * sample)` truncates toward zero, and the
  operand is nonnegative whenever it is evaluated (the assert has already
  passed), so it is the floor `⌊len * sample⌋`.
-/

/-- Errors a call can surface: the failed fraction assertion
(`assert 0 <= sample <= 1`, the spec's `InvalidArgument`), store-side
listing/walk failures, per-object fetch failures, and exhaustion of the
recursion fuel of the embedding. -/
inductive Err where
  | invalidArgument : Err
  | listingError : String → Err
  | fetchError : String → Err
  | outOfFuel : Err
deriving DecidableEq, Repr

/-- Observable events of one call: handle open (client construction),
handle close (`with` block exit calling `close()`), a one-level walk
(`walk_blobs`), a full listing (`list_blobs`), and a blob download. -/
inductive Ev where
  | openH : Ev
  | closeH : Ev
  | walk : String → Ev
  | listB : String → Ev
  | fetch : String → Ev
deriving DecidableEq, Repr

/-- Metadata of one listed blob, as consumed by the source
(`bp.name, bp.last_modified, bp.creation_time, bp.size`); timestamps are
abstract ticks. -/
structure ObjectRecord where
  name : String
  last_modified : Nat
  creation_time : Nat
  size : Nat
deriving DecidableEq, Repr

/-- The store client interface the source uses: `walk_blobs` (one-level
child listing), `list_blobs` (full listing under a name), blob download,
and the selection made by `random.sample` (the randomness source, made
explicit so the model is a function). -/
structure Store where
  walk : String → Except Err (List String)
  listBlobs : String → Except Err (List ObjectRecord)
  download : ObjectRecord → Except Err String
  sample : List ObjectRecord → Nat → List ObjectRecord

/-- `s.rstrip("/")`: remove all trailing delimiter characters. -/
def rstripSlash (s : String) : String :=
  ⟨(s.data.reverse.dropWhile (fun c => c = '/')).reverse⟩

/-- `prefix.rstrip("/") + "/"` (source line 65): normalization to exactly
one trailing delimiter. -/
def normalizeP (s : String) : String :=
  rstripSlash s ++ "/"

/-- `prefix.count("/")` (source line 66): the depth of a prefix. -/
def countSlash (s : String) : Nat :=
  s.data.count '/'

/-- A delimiter-normalized string, i.e. a Prefix in the sense of the
spec's data model ("delimiter-normalized (trailing delimiter enforced)"). -/
def NormalizedPfx (s : String) : Prop :=
  normalizeP s = s

instance (s : String) : Decidable (NormalizedPfx s) := by
  unfold NormalizedPfx; infer_instance

/-- `dask.compute(*xs)` followed by the `blob_names.extend(x)` loop
(source lines 77-79): realize the child computations in dispatch
(discovery) order and concatenate their results in that order.  If a child
fails, the aggregate fails with that child's error and later children are
not realized. -/
def gather : List (Except Err (List String) × List Ev) → Except Err (List String) × List Ev
  | [] => (Except.ok [], [])
  | (r, ev) :: rest =>
    match r with
    | Except.error e => (Except.error e, ev)
    | Except.ok l =>
      match gather rest with
      | (Except.error e, ev2) => (Except.error e, ev ++ ev2)
      | (Except.ok l2, ev2) => (Except.ok (l ++ l2), ev ++ ev2)

/-- `list_prefixes(prefix, depth, storage_options)` (source lines 37-82).
`fuel` bounds the recursion depth of the embedding only; every claim is
stated with enough fuel.  The trace starts with `Ev.openH` (client
construction, line 67) and, on every path that entered the `with` block,
ends with `Ev.closeH` (the `with` closes the client even when the body
raises or returns, lines 69-82). -/
def list_prefixes (st : Store) : Nat → String → Int → Except Err (List String) × List Ev
  | 0, _, _ => (Except.error Err.outOfFuel, [])
  | fuel + 1, pre, depth =>
    if (countSlash (normalizeP pre) : Int) < depth then
      match st.walk (normalizeP pre) with
      | Except.error e => (Except.error e, [Ev.openH, Ev.walk (normalizeP pre), Ev.closeH])
      | Except.ok kids =>
        if (countSlash (normalizeP pre) : Int) = depth - 1 then
          (Except.ok kids, [Ev.openH, Ev.walk (normalizeP pre), Ev.closeH])
        else
          ((gather (kids.map fun c => list_prefixes st fuel c depth)).1,
            Ev.openH :: Ev.walk (normalizeP pre) ::
              ((gather (kids.map fun c => list_prefixes st fuel c depth)).2 ++ [Ev.closeH]))
    else if (countSlash (normalizeP pre) : Int) = depth then
      (Except.ok [normalizeP pre], [Ev.openH, Ev.closeH])
    else
      (Except.ok [], [Ev.openH, Ev.closeH])

/-- `for blob in blobs: ... download_blob().readall()` (source lines
98-100): fetch each sampled blob in order inside the `with` block,
stopping at the first failing download. -/
def fetchAll (st : Store) : List ObjectRecord → Except Err (List String) × List Ev
  | [] => (Except.ok [], [])
  | b :: bs =>
    match st.download b with
    | Except.error e => (Except.error e, [Ev.fetch b.name])
    | Except.ok content =>
      match fetchAll st bs with
      | (Except.error e, evs) => (Except.error e, Ev.fetch b.name :: evs)
      | (Except.ok items, evs) => (Except.ok (content :: items), Ev.fetch b.name :: evs)

/-- `read_under_prefix(x, storage_options, sample)` (source lines 85-102).
Faithful to the source's order of effects: the client is constructed
(line 90, `Ev.openH`), then the fraction assertion runs (line 91), then
`list_blobs` and `random.sample` run (lines 94-95) — all BEFORE the
`with cc:` block (line 97); only the fetch loop is inside the `with`, so
only paths that reach the fetch loop emit `Ev.closeH`. -/
def read_under_prefix (st : Store) (x : String) (sample : ℚ) :
    Except Err (List String) × List Ev :=
  if 0 ≤ sample ∧ sample ≤ 1 then
    match st.listBlobs x with
    | Except.error e => (Except.error e, [Ev.openH, Ev.listB x])
    | Except.ok blobs =>
      ((fetchAll st (st.sample blobs (⌊(blobs.length : ℚ) * sample⌋).toNat)).1,
        Ev.openH :: Ev.listB x ::
          ((fetchAll st (st.sample blobs (⌊(blobs.length : ℚ) * sample⌋).toNat)).2 ++ [Ev.closeH]))
  else
    (Except.error Err.invalidArgument, [Ev.openH])

/-- Calling the sampler with its default argument `sample=1`
(source line 86). -/
def read_all_under (st : Store) (x : String) : Except Err (List String) × List Ev :=
  read_under_prefix st x 1

/-- `list_properties(prefix, storage_options)` (source lines 105-117): the
client is constructed inside the `with` expression, so the listing runs in
handle scope and `Ev.closeH` is emitted even when the listing fails. -/
def list_properties (st : Store) (pre : String) :
    Except Err (List (String × Nat × Nat × Nat)) × List Ev :=
  match st.listBlobs pre with
  | Except.error e => (Except.error e, [Ev.openH, Ev.listB pre, Ev.closeH])
  | Except.ok bps =>
    (Except.ok (bps.map fun bp => (bp.name, bp.last_modified, bp.creation_time, bp.size)),
      [Ev.openH, Ev.listB pre, Ev.closeH])

/-- The contract of `random.sample(population, k)` for `k ≤ |population|`:
the selection has length `k`, draws only population members, and when `k`
equals the population size it covers every member (it is then a full
permutation). -/
def SampleOK (smp : List ObjectRecord → Nat → List ObjectRecord) : Prop :=
  ∀ l k, k ≤ l.length →
    (smp l k).length = k ∧ (∀ b ∈ smp l k, b ∈ l) ∧
      (k = l.length → ∀ b ∈ l, b ∈ smp l k)

/-- Whether an event is an actual store call (listing, walk or download),
as opposed to handle open/close. -/
def isStoreCall : Ev → Bool
  | Ev.openH => false
  | Ev.closeH => false
  | _ => true

/-- Three concrete blob records for instantiating theorems. -/
def demoBlobs : List ObjectRecord :=
  [⟨"o1", 0, 0, 1⟩, ⟨"o2", 0, 0, 2⟩, ⟨"o3", 0, 0, 3⟩]

/-- A small concrete store used to instantiate theorems: a two-child tree
under `a/`, three listed objects, downloads returning the object's name,
and a selection function that takes the first `k` listed objects. -/
def demoStore : Store where
  walk := fun q => Except.ok (if q = "a/" then ["a/b/", "a/c/"] else [])
  listBlobs := fun _ => Except.ok demoBlobs
  download := fun b => Except.ok b.name
  sample := fun l k => l.take k

theorem sampleOK_take : SampleOK (fun l k => l.take k) := by
  intro l k hk
  refine ⟨by simpa using hk, fun b hb => List.mem_of_mem_take hb, fun hk2 b hb => ?_⟩
  subst hk2
  simpa [List.take_length] using hb

theorem countSlash_append_slash (s : String) :
    countSlash (s ++ "/") = countSlash s + 1 := by
  simp [countSlash, String.data_append]

theorem countSlash_normalizeP_pos (p : String) : 1 ≤ countSlash (normalizeP p) := by
  rw [normalizeP, countSlash_append_slash]
  omega

/-- Shared terminal-case computation: a normalized depth strictly greater
than the requested depth falls through both guards and returns the empty
list, with no walk issued. -/
theorem expand_too_deep_aux (st : Store) (fuel : Nat) (pre : String) (depth : Int)
    (hd : depth < (countSlash (normalizeP pre) : Int)) :
    list_prefixes st (fuel + 1) pre depth = (Except.ok [], [Ev.openH, Ev.closeH]) := by
  simp only [list_prefixes]
  rw [if_neg (by omega), if_neg (by omega)]

/-- C5: for every targetDepth ≥ 0 and every (delimiter-normalized, per the
spec's Prefix data model) prefix p whose delimiter count equals
targetDepth, expand returns exactly the single-element sequence [p],
without recursing and without issuing any listing: the whole result,
trace included, is ([p], [open, close]) for every fuel value. -/
theorem expand_terminal_case (st : Store) (fuel : Nat) (p : String) (depth : Int)
    (_hdep : 0 ≤ depth) (hnorm : NormalizedPfx p)
    (hd : (countSlash p : Int) = depth) :
    list_prefixes st (fuel + 1) p depth = (Except.ok [p], [Ev.openH, Ev.closeH]) := by
  have hn : normalizeP p = p := hnorm
  simp only [list_prefixes, hn, hd]
  simp

/-- C5 witness: the terminal case at p = "a/", targetDepth 1. -/
theorem expand_terminal_case_witness :
    (0 : Int) ≤ 1 ∧ NormalizedPfx "a/" ∧ (countSlash "a/" : Int) = 1 ∧
      list_prefixes demoStore 5 "a/" 1 = (Except.ok ["a/"], [Ev.openH, Ev.closeH]) :=
  ⟨by decide, by decide, by decide,
    expand_terminal_case demoStore 4 "a/" 1 (by decide) (by decide) (by decide)⟩

/-- C8: a prefix whose normalized depth exceeds the target depth yields
the empty sequence, with no listing issued and no recursion: the whole
result, trace included, is ([], [open, close]) for every fuel value. -/
theorem expand_deeper_than_target_empty (st : Store) (fuel : Nat) (pre : String) (depth : Int)
    (hd : depth < (countSlash (normalizeP pre) : Int)) :
    list_prefixes st (fuel + 1) pre depth = (Except.ok [], [Ev.openH, Ev.closeH]) :=
  expand_too_deep_aux st fuel pre depth hd

/-- C8 witness: "a/b/c" (normalized depth 3) against target depth 1. -/
theorem expand_deeper_than_target_empty_witness :
    (1 : Int) < (countSlash (normalizeP "a/b/c") : Int) ∧
      list_prefixes demoStore 5 "a/b/c" 1 = (Except.ok [], [Ev.openH, Ev.closeH]) :=
  ⟨by decide, expand_deeper_than_target_empty demoStore 4 "a/b/c" 1 (by decide)⟩

/-- C9: normalization appends a delimiter to every input (so every
normalized prefix has depth at least 1), and consequently expand at
targetDepth 0 returns the empty sequence for every input prefix — the
terminal single-element case is unreachable at depth 0. -/
theorem expand_depth_zero_empty (st : Store) (fuel : Nat) (p : String) :
    1 ≤ countSlash (normalizeP p) ∧
      (list_prefixes st (fuel + 1) p 0).1 = Except.ok [] := by
  refine ⟨countSlash_normalizeP_pos p, ?_⟩
  have h := countSlash_normalizeP_pos p
  rw [expand_too_deep_aux st fuel p 0 (by omega)]

/-- C2: an out-of-range fraction makes the sampler fail with
InvalidArgument, and on that path no store call (no listing and no
download) appears in the trace: validation happens before any store
operation. -/
theorem invalid_fraction_fails_before_store_calls (st : Store) (x : String) (f : ℚ)
    (h : ¬(0 ≤ f ∧ f ≤ 1)) :
    ( read_under_prefix st x f).1 = Except.error Err.invalidArgument ∧
      (( read_under_prefix st x f).2).filter isStoreCall = [] := by
  have e : read_under_prefix st x f = (Except.error Err.invalidArgument, [Ev.openH]) := by
    rw [ read_under_prefix, if_neg h]
  rw [e]
  exact ⟨rfl, rfl⟩

/-- C2 witness: fraction 3/2 on the demo store. -/
theorem invalid_fraction_fails_before_store_calls_witness :
    ¬(0 ≤ (3 : ℚ)/2 ∧ (3 : ℚ)/2 ≤ 1) ∧
      (( read_under_prefix demoStore "p" ((3 : ℚ)/2)).1 = Except.error Err.invalidArgument ∧
        (( read_under_prefix demoStore "p" ((3 : ℚ)/2)).2).filter isStoreCall = []) :=
  ⟨by norm_num, invalid_fraction_fails_before_store_calls demoStore "p" ((3 : ℚ)/2) (by norm_num)⟩

theorem gather_ok_mem :
    ∀ (rs : List (Except Err (List String) × List Ev)) (res : List String),
      (gather rs).1 = Except.ok res →
        ∀ q ∈ res, ∃ r ∈ rs, ∃ l, r.1 = Except.ok l ∧ q ∈ l := by
  intro rs
  induction rs with
  | nil =>
    intro res h q hq
    simp [gather] at h
    subst h
    simp at hq
  | cons a rest ih =>
    intro res h q hq
    obtain ⟨r, ev⟩ := a
    cases r with
    | error e => simp [gather] at h
    | ok l =>
      rcases hg : gather rest with ⟨r2, ev2⟩
      cases r2 with
      | error e =>
        simp only [gather, hg] at h
        simp at h
      | ok l2 =>
        simp only [gather, hg] at h
        simp only [Except.ok.injEq] at h
        subst h
        rcases List.mem_append.1 hq with hql | hql
        · exact ⟨(Except.ok l, ev), List.mem_cons_self _ _, l, rfl, hql⟩
        · obtain ⟨r3, hr3, l3, hok3, hq3⟩ := ih l2 (by rw [hg]) q hql
          exact ⟨r3, List.mem_cons_of_mem _ hr3, l3, hok3, hq3⟩

theorem gather_all_ok_aux (f : String → Except Err (List String) × List Ev)
    (g : String → List String) :
    ∀ cs : List String, (∀ c ∈ cs, (f c).1 = Except.ok (g c)) →
      (gather (cs.map f)).1 = Except.ok ((cs.map g).flatten) := by
  intro cs
  induction cs with
  | nil => intro _; simp [gather]
  | cons c cs ih =>
    intro hall
    have hc := hall c (List.mem_cons_self _ _)
    have hrest := ih (fun d hd => hall d (List.mem_cons_of_mem _ hd))
    rcases hfc : f c with ⟨r, ev⟩
    rw [hfc] at hc
    simp only at hc
    subst hc
    rcases hg : gather (cs.map f) with ⟨r2, ev2⟩
    rw [hg] at hrest
    simp only at hrest
    subst hrest
    simp only [List.map_cons, gather, hfc, hg]
    simp

/-- C4: if every one-level walk returns children whose delimiter count is
exactly one greater than the walked prefix's, then every prefix in a
successful expansion result has delimiter count exactly the target
depth. -/
theorem expand_depth_invariant (st : Store) (depth : Int)
    (hw : ∀ p l, st.walk p = Except.ok l → ∀ c ∈ l, countSlash c = countSlash p + 1) :
    ∀ fuel pre res, (list_prefixes st fuel pre depth).1 = Except.ok res →
      ∀ q ∈ res, (countSlash q : Int) = depth := by
  intro fuel
  induction fuel with
  | zero =>
    intro pre res h
    simp [list_prefixes] at h
  | succ n ih =>
    intro pre res h q hq
    simp only [list_prefixes] at h
    by_cases h1 : (countSlash (normalizeP pre) : Int) < depth
    · rw [if_pos h1] at h
      cases hwk : st.walk (normalizeP pre) with
      | error e => simp [hwk] at h
      | ok kids =>
        simp only [hwk] at h
        by_cases h2 : (countSlash (normalizeP pre) : Int) = depth - 1
        · rw [if_pos h2] at h
          simp only [Except.ok.injEq] at h
          subst h
          have := hw (normalizeP pre) kids hwk q hq
          omega
        · rw [if_neg h2] at h
          simp only at h
          obtain ⟨r, hr, l, hok, hql⟩ := gather_ok_mem _ res h q hq
          obtain ⟨c, _, rfl⟩ := List.mem_map.1 hr
          exact ih c l hok q hql
    · rw [if_neg h1] at h
      by_cases h2 : (countSlash (normalizeP pre) : Int) = depth
      · rw [if_pos h2] at h
        simp only [Except.ok.injEq] at h
        subst h
        simp only [List.mem_singleton] at hq
        subst hq
        exact h2
      · rw [if_neg h2] at h
        simp only [Except.ok.injEq] at h
        subst h
        simp at hq

/-- C4 witness: the demo store's walks deepen by exactly one, and the
expansion of "a" to depth 2 yields prefixes of count 2. -/
theorem expand_depth_invariant_witness :
    (∀ p l, demoStore.walk p = Except.ok l → ∀ c ∈ l, countSlash c = countSlash p + 1) ∧
      ∀ q ∈ ["a/b/", "a/c/"], (countSlash q : Int) = 2 := by
  have hw : ∀ p l, demoStore.walk p = Except.ok l → ∀ c ∈ l, countSlash c = countSlash p + 1 := by
    intro p l h c hc
    by_cases hp : p = "a/"
    · subst hp
      simp [demoStore] at h
      subst h
      simp only [List.mem_cons, List.mem_singleton, List.not_mem_nil, or_false] at hc
      rcases hc with rfl | rfl <;> decide
    · simp [demoStore, hp] at h
      subst h
      simp at hc
  exact ⟨hw, fun q hq =>
    expand_depth_invariant demoStore 2 hw 2 "a" ["a/b/", "a/c/"] rfl q hq⟩

/-- C6: below targetDepth - 1, the expansion result is exactly the
concatenation of the recursive expansions of the walked children, taken
in the order the children were discovered by the listing. -/
theorem expand_concat_in_discovery_order (st : Store) (fuel : Nat) (pre : String) (depth : Int)
    (cs : List String) (g : String → List String)
    (hd : (countSlash (normalizeP pre) : Int) < depth - 1)
    (hwk : st.walk (normalizeP pre) = Except.ok cs)
    (hok : ∀ c ∈ cs, (list_prefixes st fuel c depth).1 = Except.ok (g c)) :
    (list_prefixes st (fuel + 1) pre depth).1 = Except.ok ((cs.map g).flatten) := by
  have h1 : (countSlash (normalizeP pre) : Int) < depth := by omega
  have h2 : ¬((countSlash (normalizeP pre) : Int) = depth - 1) := by omega
  simp only [list_prefixes]
  rw [if_pos h1]
  simp only [hwk]
  rw [if_neg h2]
  exact gather_all_ok_aux _ g cs hok

/-- C6 witness: expanding "a" to depth 3 concatenates the two children's
(empty) expansions in discovery order. -/
theorem expand_concat_in_discovery_order_witness :
    ((countSlash (normalizeP "a") : Int) < 3 - 1) ∧
      demoStore.walk (normalizeP "a") = Except.ok ["a/b/", "a/c/"] ∧
      (∀ c ∈ ["a/b/", "a/c/"],
        (list_prefixes demoStore 1 c 3).1 = Except.ok ((fun _ => ([] : List String)) c)) ∧
      (list_prefixes demoStore 2 "a" 3).1 =
        Except.ok ((["a/b/", "a/c/"].map (fun _ => ([] : List String))).flatten) :=
  ⟨by decide, rfl, by intro c hc; fin_cases hc <;> rfl,
    expand_concat_in_discovery_order demoStore 1 "a" 3 ["a/b/", "a/c/"]
      (fun _ => []) (by decide) rfl (by intro c hc; fin_cases hc <;> rfl)⟩

/-- C1 (code bug evidence): on an invalid fraction the sampler raises
after constructing the client but before the `with` block, so the trace
holds one handle open and no handle close — an acquired handle is not
released on this error exit path. -/
theorem sampler_handle_leak_on_invalid_fraction :
    ( read_under_prefix demoStore "p" ((3 : ℚ)/2)).1 = Except.error Err.invalidArgument ∧
      (( read_under_prefix demoStore "p" ((3 : ℚ)/2)).2).count Ev.openH = 1 ∧
      (( read_under_prefix demoStore "p" ((3 : ℚ)/2)).2).count Ev.closeH = 0 := by
  have h : ¬(0 ≤ (3 : ℚ)/2 ∧ (3 : ℚ)/2 ≤ 1) := by norm_num
  have e : read_under_prefix demoStore "p" ((3 : ℚ)/2) =
      (Except.error Err.invalidArgument, [Ev.openH]) := by
    rw [ read_under_prefix, if_neg h]
  rw [e]
  exact ⟨rfl, by decide, by decide⟩

/-- Modelled from the spec's words (§4.1 step 4, general branch), solely
for the refinement comparison of C7: the same expansion WITHOUT the
`d == targetDepth - 1` shortcut — whenever `d < targetDepth` it dispatches
a recursive call on every walked child and concatenates their results in
discovery order. -/
def expand_general (st : Store) : Nat → String → Int → Except Err (List String) × List Ev
  | 0, _, _ => (Except.error Err.outOfFuel, [])
  | fuel + 1, pre, depth =>
    if (countSlash (normalizeP pre) : Int) < depth then
      match st.walk (normalizeP pre) with
      | Except.error e => (Except.error e, [Ev.openH, Ev.walk (normalizeP pre), Ev.closeH])
      | Except.ok kids =>
        ((gather (kids.map fun c => expand_general st fuel c depth)).1,
          Ev.openH :: Ev.walk (normalizeP pre) ::
            ((gather (kids.map fun c => expand_general st fuel c depth)).2 ++ [Ev.closeH]))
    else if (countSlash (normalizeP pre) : Int) = depth then
      (Except.ok [normalizeP pre], [Ev.openH, Ev.closeH])
    else
      (Except.ok [], [Ev.openH, Ev.closeH])

theorem expand_general_succ (st : Store) (fuel : Nat) (pre : String) (depth : Int) :
    expand_general st (fuel + 1) pre depth =
      if (countSlash (normalizeP pre) : Int) < depth then
        match st.walk (normalizeP pre) with
        | Except.error e => (Except.error e, [Ev.openH, Ev.walk (normalizeP pre), Ev.closeH])
        | Except.ok kids =>
          ((gather (kids.map fun c => expand_general st fuel c depth)).1,
            Ev.openH :: Ev.walk (normalizeP pre) ::
              ((gather (kids.map fun c => expand_general st fuel c depth)).2 ++ [Ev.closeH]))
      else if (countSlash (normalizeP pre) : Int) = depth then
        (Except.ok [normalizeP pre], [Ev.openH, Ev.closeH])
      else
        (Except.ok [], [Ev.openH, Ev.closeH]) := rfl

theorem flatten_map_singleton (l : List String) : (l.map (fun c => [c])).flatten = l := by
  induction l with
  | nil => simp
  | cons c cs ih => simp [ih]

/-- C7: one level from the target, returning the walked children directly
(the source's optimized branch) yields the same sequence as dispatching a
recursive expansion on each child and concatenating in discovery order
(the general branch), provided the walk returns prefixes (in the spec's
sense: delimiter-normalized) one level deeper than the walked prefix. -/
theorem optimized_branch_eq_general (st : Store) (fuel : Nat) (pre : String) (depth : Int)
    (hd : (countSlash (normalizeP pre) : Int) = depth - 1)
    (hw : ∀ q l, st.walk q = Except.ok l → ∀ c ∈ l,
        NormalizedPfx c ∧ countSlash c = countSlash q + 1) :
    (list_prefixes st (fuel + 2) pre depth).1 = (expand_general st (fuel + 2) pre depth).1 := by
  have h1 : (countSlash (normalizeP pre) : Int) < depth := by omega
  cases hwk : st.walk (normalizeP pre) with
  | error e =>
    have hL : (list_prefixes st (fuel + 2) pre depth).1 = Except.error e := by
      simp only [list_prefixes]
      rw [if_pos h1]
      simp [hwk]
    have hR : (expand_general st (fuel + 2) pre depth).1 = Except.error e := by
      simp only [expand_general]
      rw [if_pos h1]
      simp [hwk]
    rw [hL, hR]
  | ok kids =>
    have hL : (list_prefixes st (fuel + 2) pre depth).1 = Except.ok kids := by
      simp only [list_prefixes]
      rw [if_pos h1]
      simp only [hwk]
      rw [if_pos hd]
    have hkid : ∀ c ∈ kids, (expand_general st (fuel + 1) c depth).1 = Except.ok [c] := by
      intro c hc
      obtain ⟨hn, hcount⟩ := hw (normalizeP pre) kids hwk c hc
      have hcd : (countSlash (normalizeP c) : Int) = depth := by
        rw [hn]; omega
      simp only [expand_general]
      rw [if_neg (by omega), if_pos hcd]
      rw [hn]
    have hR : (expand_general st (fuel + 2) pre depth).1 = Except.ok kids := by
      show (expand_general st (fuel + 1 + 1) pre depth).1 = Except.ok kids
      rw [expand_general_succ st (fuel + 1) pre depth]
      rw [if_pos h1]
      simp only [hwk]
      have hg := gather_all_ok_aux (fun c => expand_general st (fuel + 1) c depth)
        (fun c => [c]) kids hkid
      rw [hg, flatten_map_singleton]
    rw [hL, hR]

/-- C7 witness: at "a" with target depth 2 on the demo store, the
optimized and the general expansions agree. -/
theorem optimized_branch_eq_general_witness :
    ((countSlash (normalizeP "a") : Int) = 2 - 1) ∧
      (∀ q l, demoStore.walk q = Except.ok l → ∀ c ∈ l,
        NormalizedPfx c ∧ countSlash c = countSlash q + 1) ∧
      (list_prefixes demoStore 2 "a" 2).1 = (expand_general demoStore 2 "a" 2).1 := by
  have hw : ∀ q l, demoStore.walk q = Except.ok l → ∀ c ∈ l,
      NormalizedPfx c ∧ countSlash c = countSlash q + 1 := by
    intro q l h c hc
    by_cases hq : q = "a/"
    · subst hq
      simp [demoStore] at h
      subst h
      simp only [List.mem_cons, List.mem_singleton, List.not_mem_nil, or_false] at hc
      rcases hc with rfl | rfl <;> exact ⟨by decide, by decide⟩
    · simp [demoStore, hq] at h
      subst h
      simp at hc
  exact ⟨by decide, hw, optimized_branch_eq_general demoStore 0 "a" 2 (by decide) hw⟩

theorem fetchAll_all_ok (st : Store) (dl : ObjectRecord → String)
    (hdl : ∀ b, st.download b = Except.ok (dl b)) :
    ∀ bs, fetchAll st bs = (Except.ok (bs.map dl), bs.map (fun b => Ev.fetch b.name)) := by
  intro bs
  induction bs with
  | nil => simp [fetchAll]
  | cons b bs ih =>
    simp only [fetchAll, hdl b, ih]
    simp

/-- Shared evaluation of the sampler on a valid fraction, a successful
listing and always-successful downloads: the returned contents are the
downloads of the selected blobs, where the selection size is
`⌊len * fraction⌋`. -/
theorem read_valid_eval_aux (st : Store) (x : String) (f : ℚ) (l : List ObjectRecord)
    (dl : ObjectRecord → String)
    (hf : 0 ≤ f ∧ f ≤ 1) (hl : st.listBlobs x = Except.ok l)
    (hdl : ∀ b, st.download b = Except.ok (dl b)) :
    ( read_under_prefix st x f).1 =
      Except.ok ((st.sample l (⌊(l.length : ℚ) * f⌋).toNat).map dl) := by
  rw [ read_under_prefix, if_pos hf]
  simp only [hl]
  rw [fetchAll_all_ok st dl hdl]

theorem floor_mul_le_len (n : Nat) (f : ℚ) (_hf0 : 0 ≤ f) (hf1 : f ≤ 1) :
    (⌊(n : ℚ) * f⌋).toNat ≤ n := by
  have h1 : (n : ℚ) * f ≤ (n : ℚ) := by
    calc (n : ℚ) * f ≤ (n : ℚ) * 1 := by
          exact mul_le_mul_of_nonneg_left hf1 (by positivity)
      _ = (n : ℚ) := mul_one _
  have h2 : ⌊(n : ℚ) * f⌋ ≤ (n : Int) := by
    have h3 := Int.floor_le_floor h1
    rwa [Int.floor_natCast] at h3
  exact Int.toNat_le.2 h2

/-- C3: on a successful listing of N objects and a valid fraction f, the
sampler selects exactly ⌊N * f⌋ objects and returns their downloaded
contents; for f = 0 the result is empty; for f = 1 the selection has
length N and, as a set, equals the full listing. -/
theorem sampling_cardinality (st : Store) (x : String) (f : ℚ) (l : List ObjectRecord)
    (dl : ObjectRecord → String)
    (hf0 : 0 ≤ f) (hf1 : f ≤ 1)
    (hl : st.listBlobs x = Except.ok l)
    (hs : SampleOK st.sample)
    (hdl : ∀ b, st.download b = Except.ok (dl b)) :
    ( read_under_prefix st x f).1 =
        Except.ok ((st.sample l (⌊(l.length : ℚ) * f⌋).toNat).map dl) ∧
      (st.sample l (⌊(l.length : ℚ) * f⌋).toNat).length = (⌊(l.length : ℚ) * f⌋).toNat ∧
      (f = 0 → ( read_under_prefix st x f).1 = Except.ok []) ∧
      (f = 1 →
        (st.sample l (⌊(l.length : ℚ) * f⌋).toNat).length = l.length ∧
        ∀ b, b ∈ st.sample l (⌊(l.length : ℚ) * f⌋).toNat ↔ b ∈ l) := by
  have hk : (⌊(l.length : ℚ) * f⌋).toNat ≤ l.length := floor_mul_le_len l.length f hf0 hf1
  obtain ⟨hlen, hsub, hcov⟩ := hs l _ hk
  refine ⟨read_valid_eval_aux st x f l dl ⟨hf0, hf1⟩ hl hdl, hlen, ?_, ?_⟩
  · rintro rfl
    have hk0 : (⌊(l.length : ℚ) * (0 : ℚ)⌋).toNat = 0 := by simp
    rw [read_valid_eval_aux st x 0 l dl ⟨le_refl 0, zero_le_one⟩ hl hdl, hk0]
    have h0 : st.sample l 0 = [] :=
      List.length_eq_zero.1 (hs l 0 (Nat.zero_le _)).1
    rw [h0]
    simp
  · rintro rfl
    have hk1 : (⌊(l.length : ℚ) * (1 : ℚ)⌋).toNat = l.length := by simp
    rw [hk1] at hlen hsub hcov ⊢
    exact ⟨hlen, fun b => ⟨fun hb => hsub b hb, fun hb => hcov rfl b hb⟩⟩

/-- C3 witness: fraction 1/2 over the demo store's three objects. -/
theorem sampling_cardinality_witness :
    ((0 : ℚ) ≤ 1/2 ∧ (1 : ℚ)/2 ≤ 1 ∧
      demoStore.listBlobs "x" = Except.ok demoBlobs ∧
      SampleOK demoStore.sample ∧
      (∀ b, demoStore.download b = Except.ok (ObjectRecord.name b))) ∧
    (( read_under_prefix demoStore "x" (1/2)).1 =
        Except.ok ((demoStore.sample demoBlobs
          (⌊(demoBlobs.length : ℚ) * (1/2)⌋).toNat).map ObjectRecord.name) ∧
      (demoStore.sample demoBlobs (⌊(demoBlobs.length : ℚ) * (1/2)⌋).toNat).length =
        (⌊(demoBlobs.length : ℚ) * (1/2)⌋).toNat ∧
      ((1 : ℚ)/2 = 0 →
        ( read_under_prefix demoStore "x" (1/2)).1 = Except.ok []) ∧
      ((1 : ℚ)/2 = 1 →
        (demoStore.sample demoBlobs (⌊(demoBlobs.length : ℚ) * (1/2)⌋).toNat).length =
          demoBlobs.length ∧
        ∀ b, b ∈ demoStore.sample demoBlobs (⌊(demoBlobs.length : ℚ) * (1/2)⌋).toNat ↔
          b ∈ demoBlobs)) :=
  ⟨⟨by norm_num, by norm_num, rfl, sampleOK_take, fun b => rfl⟩,
    sampling_cardinality demoStore "x" (1/2) demoBlobs ObjectRecord.name
      (by norm_num) (by norm_num) rfl sampleOK_take (fun b => rfl)⟩

/-- C10: with the default fraction (`sample=1` in the source), the sampler
fetches the contents of every object listed under the prefix: the result
is the download of a selection that covers the whole listing. -/
theorem default_fraction_fetches_all (st : Store) (x : String) (l : List ObjectRecord)
    (dl : ObjectRecord → String)
    (hl : st.listBlobs x = Except.ok l)
    (hs : SampleOK st.sample)
    (hdl : ∀ b, st.download b = Except.ok (dl b)) :
    (read_all_under st x).1 = Except.ok ((st.sample l l.length).map dl) ∧
      ∀ b ∈ l, b ∈ st.sample l l.length := by
  have hk1 : (⌊(l.length : ℚ) * (1 : ℚ)⌋).toNat = l.length := by simp
  obtain ⟨hlen, hsub, hcov⟩ := hs l l.length le_rfl
  constructor
  · show ( read_under_prefix st x 1).1 = _
    have h := read_valid_eval_aux st x 1 l dl ⟨zero_le_one, le_rfl⟩ hl hdl
    rw [hk1] at h
    exact h
  · exact fun b hb => hcov rfl b hb

/-- C10 witness: the default-fraction call on the demo store. -/
theorem default_fraction_fetches_all_witness :
    (demoStore.listBlobs "x" = Except.ok demoBlobs ∧
      SampleOK demoStore.sample ∧
      (∀ b, demoStore.download b = Except.ok (ObjectRecord.name b))) ∧
    ((read_all_under demoStore "x").1 =
        Except.ok ((demoStore.sample demoBlobs demoBlobs.length).map ObjectRecord.name) ∧
      ∀ b ∈ demoBlobs, b ∈ demoStore.sample demoBlobs demoBlobs.length) :=
  ⟨⟨rfl, sampleOK_take, fun _ => rfl⟩,
    default_fraction_fetches_all demoStore "x" demoBlobs ObjectRecord.name
      rfl sampleOK_take (fun _ => rfl)⟩

theorem gather_handles_balanced (rs : List (Except Err (List String) × List Ev))
    (h : ∀ r ∈ rs, r.2.count Ev.openH = r.2.count Ev.closeH) :
    ((gather rs).2).count Ev.openH = ((gather rs).2).count Ev.closeH := by
  induction rs with
  | nil => simp [gather]
  | cons a rest ih =>
    have ha := h a (List.mem_cons_self _ _)
    have hrest := ih (fun r hr => h r (List.mem_cons_of_mem _ hr))
    obtain ⟨r, ev⟩ := a
    cases r with
    | error e => simpa [gather] using ha
    | ok l =>
      rcases hg : gather rest with ⟨r2, ev2⟩
      rw [hg] at hrest
      cases r2 with
      | error e =>
        simp only [gather, hg, List.count_append]
        simp only at ha hrest
        omega
      | ok l2 =>
        simp only [gather, hg, List.count_append]
        simp only at ha hrest
        omega

/-- Supplementary: the expander never leaks a handle — on every exit path
(terminal, shortcut, recursive, walk error, child error, fuel exhaustion)
the number of handle closes in its trace equals the number of opens. -/
theorem expand_handles_balanced (st : Store) :
    ∀ fuel pre depth,
      ((list_prefixes st fuel pre depth).2).count Ev.openH =
        ((list_prefixes st fuel pre depth).2).count Ev.closeH := by
  intro fuel
  induction fuel with
  | zero => intro pre depth; simp [list_prefixes]
  | succ n ih =>
    intro pre depth
    by_cases h1 : (countSlash (normalizeP pre) : Int) < depth
    · cases hwk : st.walk (normalizeP pre) with
      | error e =>
        simp only [list_prefixes]
        rw [if_pos h1]
        simp [hwk]
      | ok kids =>
        by_cases h2 : (countSlash (normalizeP pre) : Int) = depth - 1
        · simp only [list_prefixes]
          rw [if_pos h1]
          simp only [hwk]
          rw [if_pos h2]
          simp
        · simp only [list_prefixes]
          rw [if_pos h1]
          simp only [hwk]
          rw [if_neg h2]
          have hbal := gather_handles_balanced (kids.map fun c => list_prefixes st n c depth)
            (by
              intro r hr
              obtain ⟨c, _, rfl⟩ := List.mem_map.1 hr
              exact ih c depth)
          simp only [List.count_cons, List.count_append]
          simp only at hbal
          simp [hbal]
    · simp only [list_prefixes]
      rw [if_neg h1]
      by_cases h2 : (countSlash (normalizeP pre) : Int) = depth
      · rw [if_pos h2]; simp
      · rw [if_neg h2]; simp

/-- Supplementary: the metadata listing never leaks a handle, even when
the listing itself fails (the client is constructed inside the `with`
expression, so the failure path still closes it). -/
theorem list_properties_handles_balanced (st : Store) (pre : String) :
    ((list_properties st pre).2).count Ev.openH =
      ((list_properties st pre).2).count Ev.closeH := by
  cases h : st.listBlobs pre with
  | error e => simp [list_properties, h]
  | ok bps => simp [list_properties, h]
